import Mathlib

/-!
Verification of the pagination / batching / id-resolution core of the
`eve-swagger-js` client library.

The definitions below are shallow embeddings of the JavaScript functions in
`src/internal/batch.js` and `src/internal/search.js` (compiled `dist` output):

* `splitIds`, `getIDMatchedValues`, `getBatchedValues`, `getRawValues`,
  `getIteratedValues` (its requester-call trace `getIteratedValuesBatches`)
  come from `batch.js`;
* `getPageBasedIterator` (`pageGo`), `getMaxIDIterator` (`maxGo`),
  `impl.filterArrayToMap` (`famGo`), `impl.filterIteratedToMap` (`fimGo`) and
  `impl.SimpleMappedResource` come from `search.js`.

JavaScript `Map` objects are modelled as association lists with in-place
update on existing keys (`mapSet`); JavaScript `Set` objects are modelled as
duplicate-free lists in insertion order (`insertUnique` / `jsSetFromArray`).
Asynchronous generators are modelled as fuel-indexed loops that return the
trace of page-loader calls (argument and response of each call) together
with a flag telling whether the loop terminated by itself (`true`) or ran
out of fuel (`false`).  Ids are numeric (`Nat`), response elements are an
opaque type `α` inspected only through the injected resolver functions,
exactly as in the source.
-/

/-- Model of JavaScript `Map.prototype.set`: replace the (unique) entry with
the given key in place, or append a fresh entry at the end.  Mirrors the
`map.set(k, v)` calls in `batch.js` and `search.js`. -/
def mapSet {α : Type} : List (Nat × α) → Nat → α → List (Nat × α)
  | [], k, v => [(k, v)]
  | p :: rest, k, v => if p.1 = k then (k, v) :: rest else p :: mapSet rest k v

/-- Model of JavaScript `Map.prototype.get`: value of the first entry with
the given key. -/
def mapFind {α : Type} (m : List (Nat × α)) (k : Nat) : Option α :=
  (m.find? (fun p => p.1 = k)).map Prod.snd

/-- Model of JavaScript `Map.prototype.has`. -/
def mapHas {α : Type} (m : List (Nat × α)) (k : Nat) : Bool :=
  m.any (fun p => p.1 = k)

theorem mapHas_iff {α : Type} (m : List (Nat × α)) (k : Nat) :
    mapHas m k = true ↔ k ∈ m.map Prod.fst := by
  simp [mapHas, List.any_eq_true, List.mem_map]

theorem mapSet_cons_eq {α : Type} (p : Nat × α) (rest : List (Nat × α))
    (k : Nat) (v : α) (hp : p.1 = k) : mapSet (p :: rest) k v = (k, v) :: rest := by
  simp [mapSet, hp]

theorem mapSet_cons_ne {α : Type} (p : Nat × α) (rest : List (Nat × α))
    (k : Nat) (v : α) (hp : p.1 ≠ k) :
    mapSet (p :: rest) k v = p :: mapSet rest k v := by
  simp [mapSet, hp]

theorem mapFind_cons {α : Type} (p : Nat × α) (rest : List (Nat × α)) (k : Nat) :
    mapFind (p :: rest) k = if p.1 = k then some p.2 else mapFind rest k := by
  by_cases h : p.1 = k
  · simp [mapFind, List.find?, h]
  · simp [mapFind, List.find?, h]

theorem mapSet_keys_mem {α : Type} (m : List (Nat × α)) (k : Nat) (v : α) (a : Nat) :
    a ∈ (mapSet m k v).map Prod.fst ↔ a = k ∨ a ∈ m.map Prod.fst := by
  induction m with
  | nil => simp [mapSet]
  | cons p rest ih =>
    by_cases hp : p.1 = k
    · rw [mapSet_cons_eq p rest k v hp]
      simp only [List.map_cons, List.mem_cons]
      rw [← hp]
      tauto
    · rw [mapSet_cons_ne p rest k v hp]
      simp only [List.map_cons, List.mem_cons, ih]
      tauto

theorem mapSet_keys_nodup {α : Type} (m : List (Nat × α)) (k : Nat) (v : α)
    (h : (m.map Prod.fst).Nodup) : ((mapSet m k v).map Prod.fst).Nodup := by
  induction m with
  | nil => simp [mapSet]
  | cons p rest ih =>
    simp only [List.map_cons, List.nodup_cons] at h
    by_cases hp : p.1 = k
    · rw [mapSet_cons_eq p rest k v hp]
      simp only [List.map_cons, List.nodup_cons]
      exact ⟨hp ▸ h.1, h.2⟩
    · rw [mapSet_cons_ne p rest k v hp]
      simp only [List.map_cons, List.nodup_cons]
      refine ⟨?_, ih h.2⟩
      intro hcon
      rcases (mapSet_keys_mem rest k v p.1).mp hcon with h1 | h2
      · exact hp h1
      · exact h.1 h2

theorem mapFind_mapSet_self {α : Type} (m : List (Nat × α)) (k : Nat) (v : α) :
    mapFind (mapSet m k v) k = some v := by
  induction m with
  | nil => simp [mapSet, mapFind, List.find?]
  | cons p rest ih =>
    by_cases h : p.1 = k
    · rw [mapSet_cons_eq p rest k v h, mapFind_cons]
      simp
    · rw [mapSet_cons_ne p rest k v h, mapFind_cons, if_neg h]
      exact ih

theorem mapFind_mapSet_ne {α : Type} (m : List (Nat × α)) (k k' : Nat) (v : α)
    (h : k' ≠ k) : mapFind (mapSet m k v) k' = mapFind m k' := by
  have hk : k ≠ k' := Ne.symm h
  induction m with
  | nil => simp [mapSet, mapFind, List.find?, hk]
  | cons p rest ih =>
    by_cases hp : p.1 = k
    · rw [mapSet_cons_eq p rest k v hp, mapFind_cons, mapFind_cons, if_neg hk,
        if_neg (by rw [hp]; exact hk)]
    · rw [mapSet_cons_ne p rest k v hp, mapFind_cons, mapFind_cons, ih]

theorem mapSet_mem {α : Type} (m : List (Nat × α)) (k : Nat) (v : α) (p : Nat × α) :
    p ∈ mapSet m k v → p = (k, v) ∨ p ∈ m := by
  induction m with
  | nil => intro h; simpa [mapSet] using h
  | cons q rest ih =>
    intro h
    by_cases hq : q.1 = k
    · rw [mapSet_cons_eq q rest k v hq] at h
      rcases List.mem_cons.mp h with h | h
      · exact Or.inl h
      · exact Or.inr (List.mem_cons_of_mem _ h)
    · rw [mapSet_cons_ne q rest k v hq] at h
      rcases List.mem_cons.mp h with h | h
      · exact Or.inr (h ▸ List.mem_cons_self _ _)
      · rcases ih h with h' | h'
        · exact Or.inl h'
        · exact Or.inr (List.mem_cons_of_mem _ h')

theorem mapSet_length {α : Type} (m : List (Nat × α)) (k : Nat) (v : α) :
    (mapSet m k v).length =
      if k ∈ m.map Prod.fst then m.length else m.length + 1 := by
  induction m with
  | nil => simp [mapSet]
  | cons p rest ih =>
    by_cases hp : p.1 = k
    · rw [mapSet_cons_eq p rest k v hp]
      simp [List.map_cons, List.mem_cons, hp]
    · rw [mapSet_cons_ne p rest k v hp]
      simp only [List.length_cons, ih, List.map_cons, List.mem_cons]
      by_cases hk : k ∈ rest.map Prod.fst
      · simp [hk, Ne.symm hp]
      · simp [hk, Ne.symm hp]

theorem mapFind_isSome_of_mem_keys {α : Type} (m : List (Nat × α)) (a : Nat) :
    a ∈ m.map Prod.fst →
    ∃ p, m.find? (fun q => q.1 = a) = some p ∧ p ∈ m ∧ p.1 = a := by
  induction m with
  | nil => intro h; simp at h
  | cons q rest ih =>
    intro h
    by_cases hq : q.1 = a
    · exact ⟨q, by simp [List.find?, hq], List.mem_cons_self _ _, hq⟩
    · simp only [List.map_cons, List.mem_cons] at h
      rcases h with h | h
      · exact absurd h.symm hq
      · rcases ih h with ⟨p, hfind, hmem, hkey⟩
        exact ⟨p, by simp [List.find?, hq, hfind],
          List.mem_cons_of_mem _ hmem, hkey⟩

/-- Model of JavaScript `Set.prototype.add`: append the element unless it is
already present (JS sets preserve insertion order). -/
def insertUnique (l : List Nat) (x : Nat) : List Nat :=
  if x ∈ l then l else l ++ [x]

/-- Model of `new Set(array)` followed by `Array.from`: the distinct elements
of the array in order of first occurrence. -/
def jsSetFromArray (l : List Nat) : List Nat :=
  l.foldl insertUnique []

theorem insertUnique_mem (l : List Nat) (x a : Nat) :
    a ∈ insertUnique l x ↔ a ∈ l ∨ a = x := by
  by_cases h : x ∈ l
  · simp [insertUnique, h]
    intro ha
    exact ha ▸ h
  · simp [insertUnique, h]

theorem insertUnique_nodup (l : List Nat) (x : Nat) (h : l.Nodup) :
    (insertUnique l x).Nodup := by
  by_cases hx : x ∈ l
  · simpa [insertUnique, hx] using h
  · simp only [insertUnique, if_neg hx]
    simpa [List.nodup_append] using ⟨h, hx⟩

theorem insertUnique_length (l : List Nat) (x : Nat) :
    (insertUnique l x).length ≤ l.length + 1 := by
  by_cases hx : x ∈ l
  · simp [insertUnique, hx]
  · simp [insertUnique, hx]

/-- `splitIds` from `batch.js`: split an id list into consecutive groups of
`batchSize` by slicing at offsets `0, B, 2B, …` (the JavaScript loop
`for (let i = 0; i < ids.length; i += batchSize)` would not terminate for
`batchSize = 0` on a non-empty list; all claims assume `batchSize > 0`, so the
embedding returns `[]` in that unreachable configuration). -/
def splitIds {α : Type} (ids : List α) (B : Nat) : List (List α) :=
  if ids.isEmpty then []
  else if B = 0 then []
  else ids.take B :: splitIds (ids.drop B) B
termination_by ids.length
decreasing_by
  rename_i h hB
  have hne : ids ≠ [] := by simpa [List.isEmpty_iff] using h
  have hpos : 0 < ids.length := List.length_pos.mpr hne
  simp only [List.length_drop]
  omega

theorem splitIds_nil {α : Type} (B : Nat) : splitIds ([] : List α) B = [] := by
  simp [splitIds]

theorem splitIds_cons {α : Type} (ids : List α) (B : Nat) (hne : ids ≠ [])
    (hB : 0 < B) : splitIds ids B = ids.take B :: splitIds (ids.drop B) B := by
  rw [splitIds]
  simp [List.isEmpty_iff, hne, Nat.pos_iff_ne_zero.mp hB]

theorem splitIds_join {α : Type} (ids : List α) (B : Nat) (hB : 0 < B) :
    (splitIds ids B).flatten = ids := by
  by_cases hne : ids = []
  · subst hne; simp [splitIds_nil]
  · rw [splitIds_cons ids B hne hB]
    have ih := splitIds_join (ids.drop B) B hB
    simp [ih, List.take_append_drop]
termination_by ids.length
decreasing_by
  have hpos : 0 < ids.length := List.length_pos.mpr hne
  simp only [List.length_drop]
  omega

theorem splitIds_length {α : Type} (ids : List α) (B : Nat) (hB : 0 < B) :
    (splitIds ids B).length = (ids.length + B - 1) / B := by
  by_cases hne : ids = []
  · subst hne
    rw [splitIds_nil]
    simp only [List.length_nil]
    exact (Nat.div_eq_of_lt (by omega)).symm
  · rw [splitIds_cons ids B hne hB]
    have ih := splitIds_length (ids.drop B) B hB
    have hpos : 0 < ids.length := List.length_pos.mpr hne
    simp only [List.length_cons, ih, List.length_drop]
    rcases Nat.lt_or_ge B ids.length with hlt | hge
    · have h1 : ids.length - B + B - 1 = ids.length - 1 := by omega
      have h2 : ids.length + B - 1 = (ids.length - 1) + B := by omega
      rw [h1, h2, Nat.add_div_right _ hB]
    · have h1 : ids.length - B + B - 1 = B - 1 := by omega
      have h2 : ids.length + B - 1 = (ids.length - 1) + B := by omega
      rw [h1, h2, Nat.add_div_right _ hB,
        Nat.div_eq_of_lt (show B - 1 < B by omega),
        Nat.div_eq_of_lt (show ids.length - 1 < B by omega)]
termination_by ids.length
decreasing_by
  have hpos : 0 < ids.length := List.length_pos.mpr hne
  simp only [List.length_drop]
  omega

theorem splitIds_ne_nil {α : Type} (ids : List α) (B : Nat) (hne : ids ≠ [])
    (hB : 0 < B) : splitIds ids B ≠ [] := by
  rw [splitIds_cons ids B hne hB]
  simp

theorem splitIds_dropLast_sizes {α : Type} (ids : List α) (B : Nat) (hB : 0 < B) :
    ∀ g ∈ (splitIds ids B).dropLast, g.length = B := by
  by_cases hne : ids = []
  · subst hne; simp [splitIds_nil]
  · rw [splitIds_cons ids B hne hB]
    by_cases hrest : ids.drop B = []
    · intro g hg
      simp [hrest, splitIds_nil] at hg
    · have htail : splitIds (ids.drop B) B ≠ [] := splitIds_ne_nil _ _ hrest hB
      obtain ⟨y, ys, hys⟩ := List.exists_cons_of_ne_nil htail
      intro g hg
      rw [hys, List.dropLast_cons₂] at hg
      rcases List.mem_cons.mp hg with h | h
      · subst h
        have hpos : 0 < ids.length := List.length_pos.mpr hne
        have hlen : B ≤ ids.length := by
          by_contra hcon
          push_neg at hcon
          have : ids.drop B = [] := List.drop_eq_nil_of_le (by omega)
          exact hrest this
        rw [List.length_take]
        omega
      · exact splitIds_dropLast_sizes (ids.drop B) B hB g (by rw [hys]; exact h)
termination_by ids.length
decreasing_by
  have hpos : 0 < ids.length := List.length_pos.mpr hne
  simp only [List.length_drop]
  omega

theorem splitIds_getLast {α : Type} (ids : List α) (B : Nat) (hB : 0 < B)
    (hne : ids ≠ []) :
    ∃ g, (splitIds ids B).getLast? = some g ∧
      g.length = if ids.length % B = 0 then B else ids.length % B := by
  rw [splitIds_cons ids B hne hB]
  have hpos : 0 < ids.length := List.length_pos.mpr hne
  by_cases hrest : ids.drop B = []
  · have hle : ids.length ≤ B := by
      have hlen := congrArg List.length hrest
      simp only [List.length_drop, List.length_nil] at hlen
      omega
    refine ⟨ids.take B, ?_, ?_⟩
    · simp [hrest, splitIds_nil]
    · rcases Nat.lt_or_ge ids.length B with hlt | hge
      · have hmod : ids.length % B = ids.length := Nat.mod_eq_of_lt hlt
        rw [List.length_take, hmod, if_neg (by omega)]
        omega
      · have heq : ids.length = B := by omega
        rw [List.length_take, heq, Nat.mod_self, if_pos rfl]
        omega
  · have htail : splitIds (ids.drop B) B ≠ [] := splitIds_ne_nil _ _ hrest hB
    obtain ⟨g, hg, hglen⟩ := splitIds_getLast (ids.drop B) B hB hrest
    obtain ⟨y, ys, hys⟩ := List.exists_cons_of_ne_nil htail
    have hge : B ≤ ids.length := by
      by_contra hcon
      push_neg at hcon
      exact hrest (List.drop_eq_nil_of_le (le_of_lt hcon))
    refine ⟨g, ?_, ?_⟩
    · rw [hys, List.getLast?_cons_cons, ← hys, hg]
    · rw [hglen]
      have hmod : (ids.drop B).length % B = ids.length % B := by
        simp only [List.length_drop]
        exact (Nat.mod_eq_sub_mod hge).symm
      rw [hmod]
termination_by ids.length
decreasing_by
  simp only [List.length_drop]
  omega

/-- C1: for every finite id list and every `batchSize > 0`, `splitIds`
produces exactly `⌈L/B⌉` consecutive groups in input order, each of size `B`
except possibly the last (which has size `L % B`, or `B` when `L % B = 0`),
and concatenating the groups reproduces the original list. -/
theorem c1_splitIds_partition {α : Type} (ids : List α) (B : Nat) (hB : 0 < B) :
    (splitIds ids B).length = (ids.length + B - 1) / B ∧
    (∀ g ∈ (splitIds ids B).dropLast, g.length = B) ∧
    (ids ≠ [] → ∃ g, (splitIds ids B).getLast? = some g ∧
      g.length = if ids.length % B = 0 then B else ids.length % B) ∧
    (splitIds ids B).flatten = ids :=
  ⟨splitIds_length ids B hB, splitIds_dropLast_sizes ids B hB,
    fun hne => splitIds_getLast ids B hB hne, splitIds_join ids B hB⟩

/-- Witness for C1 at the concrete input `[1,2,3,4,5]`, `batchSize = 2`:
three groups, concatenating them restores the list. -/
theorem c1_splitIds_partition_witness :
    (splitIds [1, 2, 3, 4, 5] 2).length = (5 + 2 - 1) / 2 ∧
    (splitIds [1, 2, 3, 4, 5] 2).flatten = [1, 2, 3, 4, 5] := by
  have h := c1_splitIds_partition [1, 2, 3, 4, 5] 2 (by decide)
  exact ⟨h.1, h.2.2.2⟩

/-- The requester-call trace of `getIteratedValues` from `batch.js`: the JS
generator accumulates incoming ids in a JS `Set` (`insertUnique` on a
duplicate-free list), flushes one requester call as soon as the set reaches
`batchSize`, and flushes the non-empty remainder when the input ends.  This
function returns the list of id arrays passed to `requester`, in call
order. -/
def iterBatchGo (B : Nat) : List Nat → List Nat → List (List Nat)
  | [], idBatch => if 0 < idBatch.length then [idBatch] else []
  | id :: rest, idBatch =>
    let b := insertUnique idBatch id
    if B ≤ b.length then b :: iterBatchGo B rest [] else iterBatchGo B rest b

/-- Requester-call trace of `getIteratedValues` over a full id stream. -/
def getIteratedValuesBatches (ids : List Nat) (B : Nat) : List (List Nat) :=
  iterBatchGo B ids []

/-- C4: feeding the streaming batch resolver the id stream `[1,2,1,3]` with
`batchSize = 2` issues exactly two requester calls, the first with id set
`{1,2}` and the second with `{1,3}`: the repeated id `1` is requested again
after the first batch has flushed, because deduplication only applies within
the current in-flight batch window. -/
theorem c4_dedup_window :
    getIteratedValuesBatches [1, 2, 1, 3] 2 = [[1, 2], [1, 3]] := by
  decide

theorem iterBatchGo_bound (B : Nat) (hB : 0 < B) :
    ∀ (rest idBatch : List Nat), idBatch.length < B →
      ∀ g ∈ iterBatchGo B rest idBatch, g.length ≤ B := by
  intro rest
  induction rest with
  | nil =>
    intro idBatch hlt g hg
    simp only [iterBatchGo] at hg
    by_cases h0 : 0 < idBatch.length
    · rw [if_pos h0] at hg
      rcases List.mem_singleton.mp hg with rfl
      omega
    · rw [if_neg h0] at hg
      simp at hg
  | cons id rest ih =>
    intro idBatch hlt g hg
    simp only [iterBatchGo] at hg
    have hle : (insertUnique idBatch id).length ≤ B :=
      le_trans (insertUnique_length idBatch id) (by omega)
    by_cases hfl : B ≤ (insertUnique idBatch id).length
    · rw [if_pos hfl] at hg
      rcases List.mem_cons.mp hg with rfl | hg'
      · exact hle
      · exact ih [] (by simpa using hB) g hg'
    · rw [if_neg hfl] at hg
      exact ih (insertUnique idBatch id) (by omega) g hg

theorem splitIds_sizes_le {α : Type} (ids : List α) (B : Nat) (hB : 0 < B) :
    ∀ g ∈ splitIds ids B, g.length ≤ B := by
  by_cases hne : ids = []
  · subst hne
    simp [splitIds_nil]
  · rw [splitIds_cons ids B hne hB]
    intro g hg
    rcases List.mem_cons.mp hg with rfl | hg'
    · rw [List.length_take]
      omega
    · exact splitIds_sizes_le (ids.drop B) B hB g hg'
termination_by ids.length
decreasing_by
  have hpos : 0 < ids.length := List.length_pos.mpr hne
  simp only [List.length_drop]
  omega

/-- C5: for `batchSize ≥ 1`, every id list handed to a single requester call
has length at most the batch size — both on the list-splitting path
(`splitIds`, whose groups `getIDMatchedValues` passes verbatim to the
requester) and on the streaming path (`getIteratedValues`). -/
theorem c5_batch_bound (ids : List Nat) (B : Nat) (hB : 1 ≤ B) :
    (∀ g ∈ splitIds ids B, g.length ≤ B) ∧
    (∀ g ∈ getIteratedValuesBatches ids B, g.length ≤ B) :=
  ⟨splitIds_sizes_le ids B hB,
    fun g hg => iterBatchGo_bound B hB ids [] (by simpa using hB) g hg⟩

/-- Witness for C5 at the concrete input `[7,7,8,9]`, `batchSize = 2`:
`splitIds` produces the group `[7,7]` and the streaming path produces the
requester call `[7,8]`; both are within the bound. -/
theorem c5_batch_bound_witness :
    ([7, 7] : List Nat).length ≤ 2 ∧ ([7, 8] : List Nat).length ≤ 2 := by
  have h0 : splitIds ([] : List Nat) 2 = [] := splitIds_nil 2
  have h2 : splitIds [8, 9] 2 = [[8, 9]] := by
    rw [splitIds_cons [8, 9] 2 (by decide) (by decide),
      show List.take 2 [8, 9] = [8, 9] from by decide,
      show List.drop 2 [8, 9] = [] from by decide, h0]
  have h1 : splitIds [7, 7, 8, 9] 2 = [[7, 7], [8, 9]] := by
    rw [splitIds_cons [7, 7, 8, 9] 2 (by decide) (by decide),
      show List.take 2 [7, 7, 8, 9] = [7, 7] from by decide,
      show List.drop 2 [7, 7, 8, 9] = [8, 9] from by decide, h2]
  refine ⟨(c5_batch_bound [7, 7, 8, 9] 2 (by decide)).1 [7, 7] ?_,
    (c5_batch_bound [7, 7, 8, 9] 2 (by decide)).2 [7, 8] (by decide)⟩
  rw [h1]
  decide

/-- Page response of the page-number loader in `search.js`: either a bare
element array (modelled with `maxPages := none`) or a
`{ result, maxPages }` record. -/
structure PageLoad (α : Type) where
  result : List α
  maxPages : Option Nat

/-- Loop condition of `getPageBasedIterator`:
`maxPages === undefined || page < maxPages`. -/
def pageCond (page : Nat) (mp : Option Nat) : Bool :=
  match mp with
  | none => true
  | some m => page < m

/-- One-shot capture of the `maxPages` hint: `getPageBasedIterator` records
`pageResults.maxPages` only while no hint has been captured yet. -/
def updMaxPages (mp : Option Nat) (hint : Option Nat) : Option Nat :=
  match mp, hint with
  | none, some m => some m
  | _, _ => mp

/-- Short-page test shared by both iterators:
`maxPageSize !== undefined && elements.length < maxPageSize`. -/
def shortPage (len : Nat) (mps : Option Nat) : Bool :=
  match mps with
  | none => false
  | some s => len < s

/-- Combined stopping test observed on a fetched page: the page is empty, or
the short-page heuristic fires. -/
def stopB {α : Type} (l : List α) (mps : Option Nat) : Bool :=
  l.isEmpty || shortPage l.length mps

/-- `getPageBasedIterator` from `search.js`, as a fuel-indexed loop.  The
loader is indexed by call count `k` (the JS loader is an async function that
may answer each call differently); the page number passed to each call is
recorded in the returned trace together with the page's elements.  Returns
`(true, trace)` when the loop terminated by itself and `(false, trace)` when
the fuel ran out. -/
def pageGo {α : Type} (L : Nat → PageLoad α) (mps : Option Nat) :
    Nat → Nat → Nat → Option Nat → Bool × List (Nat × List α)
  | 0, _, _, _ => (false, [])
  | fuel + 1, k, page, mp =>
    if pageCond page mp then
      let pr := L k
      let mp' := updMaxPages mp pr.maxPages
      if pr.result.isEmpty then (true, [(page, pr.result)])
      else if shortPage pr.result.length mps then (true, [(page, pr.result)])
      else
        let r := pageGo L mps fuel (k + 1) (page + 1) mp'
        (r.1, (page, pr.result) :: r.2)
    else (true, [])

/-- A full run of the page-number streamer: page counter starts at 1, no
`maxPages` hint captured yet. -/
def getPageBasedIterator {α : Type} (L : Nat → PageLoad α) (mps : Option Nat)
    (fuel : Nat) : Bool × List (Nat × List α) :=
  pageGo L mps fuel 0 1 none

/-- `getMaxIDIterator` from `search.js`, as a fuel-indexed loop.  The loader
is indexed by call count; the `maxID` cursor passed to each call (initially
`undefined`, i.e. `none`) is recorded in the trace together with the page's
elements.  After a non-stopping page the cursor advances to
`idResolver(lastElementOfPage)`. -/
def maxGo {α : Type} (L : Nat → List α) (res : α → Nat) (mps : Option Nat) :
    Nat → Nat → Option Nat → Bool × List (Option Nat × List α)
  | 0, _, _ => (false, [])
  | fuel + 1, k, maxID =>
    match L k with
    | [] => (true, [(maxID, [])])
    | x :: xs =>
      if shortPage (x :: xs).length mps then (true, [(maxID, x :: xs)])
      else
        let r := maxGo L res mps fuel (k + 1)
          (some (res ((x :: xs).getLast (List.cons_ne_nil x xs))))
        (r.1, (maxID, x :: xs) :: r.2)

/-- A full run of the max-id streamer: cursor starts as `undefined`. -/
def getMaxIDIterator {α : Type} (L : Nat → List α) (res : α → Nat)
    (mps : Option Nat) (fuel : Nat) : Bool × List (Option Nat × List α) :=
  maxGo L res mps fuel 0 none

/-- C3: a max-id streamer whose loader answers the pages
`[[10, 9], [8], []]` (elements standing for their own ids,
`idResolver = fun e => e`) is called first with cursor `undefined`, then
with cursor `9`, then with cursor `8`; it yields exactly the three elements
`10, 9, 8` in page order and stops after the empty third page with no
further loader calls. -/
theorem c3_maxid_trace :
    getMaxIDIterator
        (fun k => if k = 0 then [10, 9] else if k = 1 then [8] else [])
        (fun e => e) none 10 =
      (true, [(none, [10, 9]), (some 9, [8]), (some 8, [])]) := by
  decide

theorem pageGo_zero {α : Type} (L : Nat → PageLoad α) (mps : Option Nat)
    (k page : Nat) (mp : Option Nat) : pageGo L mps 0 k page mp = (false, []) :=
  rfl

theorem pageGo_succ {α : Type} (L : Nat → PageLoad α) (mps : Option Nat)
    (fuel k page : Nat) (mp : Option Nat) :
    pageGo L mps (fuel + 1) k page mp =
      if pageCond page mp then
        if (L k).result.isEmpty then (true, [(page, (L k).result)])
        else if shortPage (L k).result.length mps then
          (true, [(page, (L k).result)])
        else
          ((pageGo L mps fuel (k + 1) (page + 1)
              (updMaxPages mp (L k).maxPages)).1,
            (page, (L k).result) ::
              (pageGo L mps fuel (k + 1) (page + 1)
                (updMaxPages mp (L k).maxPages)).2)
      else (true, []) :=
  rfl

theorem updMaxPages_some (M : Nat) (hint : Option Nat) :
    updMaxPages (some M) hint = some M := by
  cases hint <;> rfl

/-- Once the `maxPages` state is `some M`, every page number passed to the
loader by the remaining loop iterations is strictly below `M`. -/
theorem pageGo_bound {α : Type} (L : Nat → PageLoad α) (mps : Option Nat)
    (M : Nat) : ∀ fuel k page, ∀ e ∈ (pageGo L mps fuel k page (some M)).2,
      e.1 < M := by
  intro fuel
  induction fuel with
  | zero =>
    intro k page e he
    simp [pageGo_zero] at he
  | succ fuel ih =>
    intro k page e he
    rw [pageGo_succ] at he
    by_cases hc : pageCond page (some M) = true
    · have hpage : page < M := by simpa [pageCond] using hc
      rw [if_pos hc] at he
      by_cases hemp : (L k).result.isEmpty = true
      · rw [if_pos hemp] at he
        rcases List.mem_singleton.mp he with rfl
        exact hpage
      · rw [if_neg hemp] at he
        by_cases hshort : shortPage (L k).result.length mps = true
        · rw [if_pos hshort] at he
          rcases List.mem_singleton.mp he with rfl
          exact hpage
        · rw [if_neg hshort] at he
          rcases List.mem_cons.mp he with rfl | he'
          · exact hpage
          · rw [updMaxPages_some] at he'
            exact ih (k + 1) (page + 1) e he'
    · rw [if_neg hc] at he
      simp at he

/-- If the response to call `k + i` carries the first `maxPages` hint `M`
(no earlier response carries one), every loop iteration after that call uses
a page number strictly below `M`. -/
theorem pageGo_hint_bound {α : Type} (L : Nat → PageLoad α) (mps : Option Nat)
    (M : Nat) : ∀ fuel i k page, (L (k + i)).maxPages = some M →
      (∀ j, j < i → (L (k + j)).maxPages = none) →
      ∀ e ∈ (pageGo L mps fuel k page none).2.drop (i + 1), e.1 < M := by
  intro fuel
  induction fuel with
  | zero =>
    intro i k page _ _ e he
    simp [pageGo_zero] at he
  | succ fuel ih =>
    intro i k page hhint hfirst e he
    rw [pageGo_succ] at he
    have hc : pageCond page none = true := rfl
    rw [if_pos hc] at he
    by_cases hemp : (L k).result.isEmpty = true
    · rw [if_pos hemp] at he
      rw [List.drop_eq_nil_of_le (by simp)] at he
      simp at he
    · rw [if_neg hemp] at he
      by_cases hshort : shortPage (L k).result.length mps = true
      · rw [if_pos hshort] at he
        rw [List.drop_eq_nil_of_le (by simp)] at he
        simp at he
      · rw [if_neg hshort] at he
        cases i with
        | zero =>
          have hupd : updMaxPages none (L k).maxPages = some M := by
            have : (L k).maxPages = some M := by simpa using hhint
            rw [this]
            rfl
          rw [List.drop_succ_cons, List.drop_zero, hupd] at he
          exact pageGo_bound L mps M fuel (k + 1) (page + 1) e he
        | succ i' =>
          have h0 : (L k).maxPages = none := by
            have := hfirst 0 (by omega)
            simpa using this
          have hupd : updMaxPages none (L k).maxPages = none := by
            rw [h0]
            rfl
          rw [List.drop_succ_cons, hupd] at he
          have hhint' : (L (k + 1 + i')).maxPages = some M := by
            have : k + 1 + i' = k + (i' + 1) := by omega
            rw [this]
            exact hhint
          have hfirst' : ∀ j, j < i' → (L (k + 1 + j)).maxPages = none := by
            intro j hj
            have : k + 1 + j = k + (j + 1) := by omega
            rw [this]
            exact hfirst (j + 1) (by omega)
          exact ih i' (k + 1) (page + 1) hhint' hfirst' e he

/-- C9 (implicit): once the page-number streamer has captured a `maxPages`
hint `M` from the response to call `i` (the first response carrying a hint),
no later loader call uses a page number greater than or equal to `M`: the
loop continues only while the current page number is strictly below `M`. -/
theorem c9_maxpages_bound {α : Type} (L : Nat → PageLoad α) (mps : Option Nat)
    (fuel i M : Nat) (hhint : (L i).maxPages = some M)
    (hfirst : ∀ j, j < i → (L j).maxPages = none) :
    ∀ e ∈ (getPageBasedIterator L mps fuel).2.drop (i + 1), e.1 < M := by
  have h := pageGo_hint_bound L mps M fuel i 0 1 (by simpa using hhint)
    (by intro j hj; simpa using hfirst j hj)
  simpa [getPageBasedIterator] using h

/-- Witness for C9: a loader whose first response hints `maxPages = 3` and
then keeps answering full pages; the streamer makes exactly the calls for
pages 1 and 2, and the sole call issued after the hint uses page 2 < 3. -/
theorem c9_maxpages_bound_witness :
    ((getPageBasedIterator
        (fun k => if k = 0 then PageLoad.mk [1, 2, 3] (some 3)
          else PageLoad.mk [1, 2, 3] none) none 10).2.drop 1 =
      [(2, [1, 2, 3])]) ∧ (2 : Nat) < 3 := by
  constructor
  · decide
  · exact c9_maxpages_bound
      (fun k => if k = 0 then PageLoad.mk [1, 2, 3] (some 3)
        else PageLoad.mk [1, 2, 3] none) none 10 0 3 (by decide)
      (fun j hj => absurd hj (Nat.not_lt_zero j)) (2, [1, 2, 3]) (by decide)

theorem maxGo_succ {α : Type} (L : Nat → List α) (res : α → Nat)
    (mps : Option Nat) (fuel k : Nat) (c : Option Nat) :
    maxGo L res mps (fuel + 1) k c =
      match L k with
      | [] => (true, [(c, [])])
      | x :: xs =>
        if shortPage (x :: xs).length mps then (true, [(c, x :: xs)])
        else
          ((maxGo L res mps fuel (k + 1)
              (some (res ((x :: xs).getLast (List.cons_ne_nil x xs))))).1,
            (c, x :: xs) ::
              (maxGo L res mps fuel (k + 1)
                (some (res ((x :: xs).getLast (List.cons_ne_nil x xs))))).2) :=
  rfl

/-- Forward direction of the max-id stopping discipline: a terminated run
fetched at least one page, every page but the last was neither empty nor
short, and the last fetched page was empty or short. -/
theorem maxGo_stop {α : Type} (L : Nat → List α) (res : α → Nat)
    (mps : Option Nat) : ∀ fuel k c t,
      maxGo L res mps fuel k c = (true, t) →
      0 < t.length ∧
      (∀ i, i + 1 < t.length → stopB (L (k + i)) mps = false) ∧
      stopB (L (k + (t.length - 1))) mps = true := by
  intro fuel
  induction fuel with
  | zero =>
    intro k c t h
    exact absurd (congrArg Prod.fst h) (by simp [maxGo])
  | succ fuel ih =>
    intro k c t h
    cases hL : L k with
    | nil =>
      simp only [maxGo_succ, hL] at h
      injection h with h1 h2
      subst h2
      refine ⟨by simp, by intro i hi; simp at hi, ?_⟩
      simp [stopB, hL]
    | cons x xs =>
      simp only [maxGo_succ, hL] at h
      by_cases hs : shortPage (x :: xs).length mps = true
      · rw [if_pos hs] at h
        injection h with h1 h2
        subst h2
        refine ⟨by simp, by intro i hi; simp at hi, ?_⟩
        have hs' : shortPage (xs.length + 1) mps = true := by simpa using hs
        simp [stopB, hL, hs']
      · rw [if_neg hs] at h
        injection h with h1 h2
        subst h2
        obtain ⟨hpos, hmid, hlast⟩ := ih (k + 1) _ _ (by rw [← h1])
        have hsf : shortPage (xs.length + 1) mps = false := by
          simpa using hs
        refine ⟨by simp, ?_, ?_⟩
        · intro i hi
          simp only [List.length_cons] at hi
          cases i with
          | zero => simp [stopB, hL, hsf]
          | succ i' =>
            have hstep := hmid i' (by omega)
            have hidx : k + (i' + 1) = k + 1 + i' := by omega
            rw [hidx]
            exact hstep
        · simp only [List.length_cons, Nat.add_sub_cancel]
          have hidx : k + 1 +
              ((maxGo L res mps fuel (k + 1)
                (some (res ((x :: xs).getLast (List.cons_ne_nil x xs))))).2.length
                - 1) =
              k + (maxGo L res mps fuel (k + 1)
                (some (res ((x :: xs).getLast (List.cons_ne_nil x xs))))).2.length := by
            omega
          rw [← hidx]
          exact hlast

/-- Converse direction of the max-id stopping discipline: if the first `n`
responses are neither empty nor short and response `n` is empty or short,
a run with enough fuel terminates after exactly `n + 1` loader calls. -/
theorem maxGo_stops_when {α : Type} (L : Nat → List α) (res : α → Nat)
    (mps : Option Nat) : ∀ n fuel k c,
      (∀ i, i < n → stopB (L (k + i)) mps = false) →
      stopB (L (k + n)) mps = true → n < fuel →
      ∃ t, maxGo L res mps fuel k c = (true, t) ∧ t.length = n + 1 := by
  intro n
  induction n with
  | zero =>
    intro fuel k c _ hstop hfuel
    cases fuel with
    | zero => omega
    | succ fuel' =>
      cases hL : L k with
      | nil =>
        simp only [maxGo_succ, hL]
        exact ⟨[(c, [])], rfl, rfl⟩
      | cons x xs =>
        have hs : shortPage (x :: xs).length mps = true := by
          rw [Nat.add_zero, hL] at hstop
          simpa [stopB] using hstop
        simp only [maxGo_succ, hL]
        rw [if_pos hs]
        exact ⟨[(c, x :: xs)], rfl, rfl⟩
  | succ n ihn =>
    intro fuel k c hpre hstop hfuel
    cases fuel with
    | zero => omega
    | succ fuel' =>
      cases hL : L k with
      | nil =>
        have h0 := hpre 0 (by omega)
        rw [Nat.add_zero, hL] at h0
        simp [stopB] at h0
      | cons x xs =>
        have h0 := hpre 0 (by omega)
        rw [Nat.add_zero, hL] at h0
        have hsf : shortPage (xs.length + 1) mps = false := by
          simpa [stopB] using h0
        simp only [maxGo_succ, hL]
        rw [if_neg (by simp [hsf])]
        have hpre' : ∀ i, i < n →
            stopB (L (k + 1 + i)) mps = false := by
          intro i hi
          have hidx : k + 1 + i = k + (i + 1) := by omega
          rw [hidx]
          exact hpre (i + 1) (by omega)
        have hstop' : stopB (L (k + 1 + n)) mps = true := by
          have hidx : k + 1 + n = k + (n + 1) := by omega
          rw [hidx]
          exact hstop
        obtain ⟨t, ht, hlen⟩ := ihn fuel' (k + 1)
          (some (res ((x :: xs).getLast (List.cons_ne_nil x xs))))
          hpre' hstop' (by omega)
        rw [ht]
        exact ⟨(c, x :: xs) :: t, rfl, by simp [hlen]⟩

/-- The `maxPages` state reached by `getPageBasedIterator` after processing
responses `L k, …, L (k + n - 1)` starting from state `mp`: the first hint
wins and is never overwritten. -/
def mpFromL {α : Type} (L : Nat → PageLoad α) : Option Nat → Nat → Nat → Option Nat
  | mp, _, 0 => mp
  | mp, k, n + 1 => mpFromL L (updMaxPages mp (L k).maxPages) (k + 1) n

theorem mpFromL_zero {α : Type} (L : Nat → PageLoad α) (mp : Option Nat)
    (k : Nat) : mpFromL L mp k 0 = mp :=
  rfl

theorem mpFromL_succ {α : Type} (L : Nat → PageLoad α) (mp : Option Nat)
    (k n : Nat) : mpFromL L mp k (n + 1) =
      mpFromL L (updMaxPages mp (L k).maxPages) (k + 1) n :=
  rfl

/-- Forward direction of the page-number stopping discipline: on a
terminated run, the loop condition held before every made call, no page but
the last was empty or short, and the run ended either because the last page
was empty or short, or because the loop condition (driven by a captured
`maxPages` hint) failed for the next page. -/
theorem pageGo_char {α : Type} (L : Nat → PageLoad α) (mps : Option Nat) :
    ∀ fuel k page mp t, pageGo L mps fuel k page mp = (true, t) →
      (t = [] → pageCond page mp = false) ∧
      (t ≠ [] → pageCond page mp = true) ∧
      (∀ i, i + 1 < t.length →
        stopB (L (k + i)).result mps = false ∧
        pageCond (page + (i + 1)) (mpFromL L mp k (i + 1)) = true) ∧
      (t ≠ [] →
        stopB (L (k + (t.length - 1))).result mps = true ∨
        pageCond (page + t.length) (mpFromL L mp k t.length) = false) := by
  intro fuel
  induction fuel with
  | zero =>
    intro k page mp t h
    exact absurd (congrArg Prod.fst h) (by simp [pageGo_zero])
  | succ fuel ih =>
    intro k page mp t h
    by_cases hc : pageCond page mp = true
    · rw [pageGo_succ, if_pos hc] at h
      by_cases hemp : (L k).result.isEmpty = true
      · rw [if_pos hemp] at h
        injection h with h1 h2
        subst h2
        refine ⟨by intro h0; simp at h0, fun _ => hc, ?_, ?_⟩
        · intro i hi
          simp at hi
        · intro _
          left
          simp [stopB, hemp]
      · rw [if_neg hemp] at h
        by_cases hshort : shortPage (L k).result.length mps = true
        · rw [if_pos hshort] at h
          injection h with h1 h2
          subst h2
          refine ⟨by intro h0; simp at h0, fun _ => hc, ?_, ?_⟩
          · intro i hi
            simp at hi
          · intro _
            left
            simp [stopB, hshort]
        · rw [if_neg hshort] at h
          injection h with h1 h2
          subst h2
          obtain ⟨ih1, ih2, ih3, ih4⟩ :=
            ih (k + 1) (page + 1) (updMaxPages mp (L k).maxPages) _ (by rw [← h1])
          have hempf : (L k).result.isEmpty = false := by simpa using hemp
          have hshortf : shortPage (L k).result.length mps = false := by
            simpa using hshort
          refine ⟨by intro h0; simp at h0, fun _ => hc, ?_, ?_⟩
          · intro i hi
            simp only [List.length_cons] at hi
            cases i with
            | zero =>
              refine ⟨by simp [stopB, hempf, hshortf], ?_⟩
              have hr2 : (pageGo L mps fuel (k + 1) (page + 1)
                  (updMaxPages mp (L k).maxPages)).2 ≠ [] :=
                List.length_pos.mp (by omega)
              exact ih2 hr2
            | succ i' =>
              obtain ⟨ha, hb⟩ := ih3 i' (by omega)
              constructor
              · have hidx : k + (i' + 1) = k + 1 + i' := by omega
                rw [hidx]
                exact ha
              · have hidx : page + (i' + 1 + 1) = page + 1 + (i' + 1) := by
                  omega
                rw [hidx]
                exact hb
          · intro _
            by_cases hr2 : (pageGo L mps fuel (k + 1) (page + 1)
                (updMaxPages mp (L k).maxPages)).2 = []
            · right
              rw [hr2]
              have := ih1 hr2
              have hidx : page + (([] : List (Nat × List α)).length + 1) =
                  page + 1 := by simp
              simpa using this
            · have hpos : 0 < (pageGo L mps fuel (k + 1) (page + 1)
                  (updMaxPages mp (L k).maxPages)).2.length :=
                List.length_pos.mpr hr2
              rcases ih4 hr2 with hl | hr
              · left
                have hidx : k + 1 + ((pageGo L mps fuel (k + 1) (page + 1)
                    (updMaxPages mp (L k).maxPages)).2.length - 1) =
                    k + (pageGo L mps fuel (k + 1) (page + 1)
                      (updMaxPages mp (L k).maxPages)).2.length := by
                  omega
                rw [hidx] at hl
                simpa using hl
              · right
                have hidx : page + 1 + (pageGo L mps fuel (k + 1) (page + 1)
                    (updMaxPages mp (L k).maxPages)).2.length =
                    page + ((pageGo L mps fuel (k + 1) (page + 1)
                      (updMaxPages mp (L k).maxPages)).2.length + 1) := by
                  omega
                rw [hidx] at hr
                simpa using hr
    · rw [pageGo_succ, if_neg hc] at h
      injection h with h1 h2
      subst h2
      refine ⟨fun _ => by simpa using hc, fun hne => absurd rfl hne, ?_,
        fun hne => absurd rfl hne⟩
      intro i hi
      simp at hi

/-- Converse direction (empty/short stop): if the first `n` responses keep
the loop going and response `n` is empty or short while the loop condition
still allows call `n`, a run with enough fuel terminates after exactly
`n + 1` loader calls. -/
theorem pageGo_stops_short {α : Type} (L : Nat → PageLoad α)
    (mps : Option Nat) : ∀ n fuel k page mp,
      (∀ i, i < n → stopB (L (k + i)).result mps = false ∧
        pageCond (page + i) (mpFromL L mp k i) = true) →
      pageCond (page + n) (mpFromL L mp k n) = true →
      stopB (L (k + n)).result mps = true → n < fuel →
      ∃ t, pageGo L mps fuel k page mp = (true, t) ∧ t.length = n + 1 := by
  intro n
  induction n with
  | zero =>
    intro fuel k page mp _ hcond hstop hfuel
    cases fuel with
    | zero => omega
    | succ fuel' =>
      have hc : pageCond page mp = true := by
        simpa [mpFromL_zero] using hcond
      rw [pageGo_succ, if_pos hc]
      by_cases hemp : (L k).result.isEmpty = true
      · rw [if_pos hemp]
        exact ⟨[(page, (L k).result)], rfl, rfl⟩
      · have hsh : shortPage (L k).result.length mps = true := by
          rw [Nat.add_zero] at hstop
          simp [stopB, hemp] at hstop
          exact hstop
        rw [if_neg hemp, if_pos hsh]
        exact ⟨[(page, (L k).result)], rfl, rfl⟩
  | succ n ihn =>
    intro fuel k page mp hpre hcond hstop hfuel
    cases fuel with
    | zero => omega
    | succ fuel' =>
      obtain ⟨h0a, h0b⟩ := hpre 0 (by omega)
      have hc : pageCond page mp = true := by
        simpa [mpFromL_zero] using h0b
      rw [Nat.add_zero] at h0a
      simp only [stopB, Bool.or_eq_false_iff] at h0a
      rw [pageGo_succ, if_pos hc, if_neg (by simp [h0a.1]),
        if_neg (by simp [h0a.2])]
      have hpre' : ∀ i, i < n →
          stopB (L (k + 1 + i)).result mps = false ∧
          pageCond (page + 1 + i)
            (mpFromL L (updMaxPages mp (L k).maxPages) (k + 1) i) = true := by
        intro i hi
        obtain ⟨ha, hb⟩ := hpre (i + 1) (by omega)
        constructor
        · have hidx : k + 1 + i = k + (i + 1) := by omega
          rw [hidx]
          exact ha
        · have hidx : page + 1 + i = page + (i + 1) := by omega
          rw [hidx]
          exact hb
      have hcond' : pageCond (page + 1 + n)
          (mpFromL L (updMaxPages mp (L k).maxPages) (k + 1) n) = true := by
        have hidx : page + 1 + n = page + (n + 1) := by omega
        rw [hidx]
        exact hcond
      have hstop' : stopB (L (k + 1 + n)).result mps = true := by
        have hidx : k + 1 + n = k + (n + 1) := by omega
        rw [hidx]
        exact hstop
      obtain ⟨t, ht, hlen⟩ := ihn fuel' (k + 1) (page + 1)
        (updMaxPages mp (L k).maxPages) hpre' hcond' hstop' (by omega)
      rw [ht]
      exact ⟨(page, (L k).result) :: t, rfl, by simp [hlen]⟩

/-- Converse direction (`maxPages` stop): if the first `n` responses keep
the loop going but the loop condition fails for call `n` (the captured
`maxPages` bound has been reached), a run with enough fuel terminates after
exactly `n` loader calls. -/
theorem pageGo_stops_bound {α : Type} (L : Nat → PageLoad α)
    (mps : Option Nat) : ∀ n fuel k page mp,
      (∀ i, i < n → stopB (L (k + i)).result mps = false ∧
        pageCond (page + i) (mpFromL L mp k i) = true) →
      pageCond (page + n) (mpFromL L mp k n) = false → n < fuel →
      ∃ t, pageGo L mps fuel k page mp = (true, t) ∧ t.length = n := by
  intro n
  induction n with
  | zero =>
    intro fuel k page mp _ hcond hfuel
    cases fuel with
    | zero => omega
    | succ fuel' =>
      have hc : pageCond page mp = false := by
        simpa [mpFromL_zero] using hcond
      rw [pageGo_succ, if_neg (by simp [hc])]
      exact ⟨[], rfl, rfl⟩
  | succ n ihn =>
    intro fuel k page mp hpre hcond hfuel
    cases fuel with
    | zero => omega
    | succ fuel' =>
      obtain ⟨h0a, h0b⟩ := hpre 0 (by omega)
      have hc : pageCond page mp = true := by
        simpa [mpFromL_zero] using h0b
      rw [Nat.add_zero] at h0a
      simp only [stopB, Bool.or_eq_false_iff] at h0a
      rw [pageGo_succ, if_pos hc, if_neg (by simp [h0a.1]),
        if_neg (by simp [h0a.2])]
      have hpre' : ∀ i, i < n →
          stopB (L (k + 1 + i)).result mps = false ∧
          pageCond (page + 1 + i)
            (mpFromL L (updMaxPages mp (L k).maxPages) (k + 1) i) = true := by
        intro i hi
        obtain ⟨ha, hb⟩ := hpre (i + 1) (by omega)
        constructor
        · have hidx : k + 1 + i = k + (i + 1) := by omega
          rw [hidx]
          exact ha
        · have hidx : page + 1 + i = page + (i + 1) := by omega
          rw [hidx]
          exact hb
      have hcond' : pageCond (page + 1 + n)
          (mpFromL L (updMaxPages mp (L k).maxPages) (k + 1) n) = false := by
        have hidx : page + 1 + n = page + (n + 1) := by omega
        rw [hidx]
        exact hcond
      obtain ⟨t, ht, hlen⟩ := ihn fuel' (k + 1) (page + 1)
        (updMaxPages mp (L k).maxPages) hpre' hcond' (by omega)
      rw [ht]
      exact ⟨(page, (L k).result) :: t, rfl, by simp [hlen]⟩

/-- Counterexample to C2 as stated: the page-number streamer has a third
stopping condition.  With a loader that always answers the full non-empty
page `[1, 2]` together with the hint `maxPages = 2`, and no `maxPageSize`
configured, the run terminates after a single fetch: the only fetched page
was neither empty nor short (`stopB … = false`), yet no further page was
requested, because the captured `maxPages` bound stopped the loop. -/
theorem c2_stop_counterexample :
    (getPageBasedIterator (fun _ => PageLoad.mk [1, 2] (some 2)) none 10).1 =
      true ∧
    (getPageBasedIterator (fun _ => PageLoad.mk [1, 2] (some 2)) none 10).2 =
      [(1, [1, 2])] ∧
    stopB (PageLoad.mk [1, 2] (some 2) : PageLoad Nat).result none = false :=
  ⟨by decide, by decide, by decide⟩

/-- C2 (amended): the max-id streamer stops fetching exactly when an empty
page is observed or, once the full-page size is known, a fetched page is
strictly shorter than it; the page-number streamer stops for exactly those
same reasons or, additionally, when the page counter reaches a previously
captured `maxPages` hint (the loop only continues while `page < maxPages`).
No other condition stops a sequence that is still yielding elements. -/
theorem c2_stop_amended {α : Type} (L : Nat → List α) (res : α → Nat)
    (P : Nat → PageLoad α) (mps : Option Nat) (fuel : Nat) :
    (∀ t, getMaxIDIterator L res mps fuel = (true, t) →
      0 < t.length ∧
      (∀ i, i + 1 < t.length → stopB (L i) mps = false) ∧
      stopB (L (t.length - 1)) mps = true) ∧
    (∀ n, (∀ i, i < n → stopB (L i) mps = false) → stopB (L n) mps = true →
      n < fuel →
      ∃ t, getMaxIDIterator L res mps fuel = (true, t) ∧ t.length = n + 1) ∧
    (∀ t, getPageBasedIterator P mps fuel = (true, t) →
      t ≠ [] ∧
      (∀ i, i + 1 < t.length → stopB (P i).result mps = false ∧
        pageCond (1 + (i + 1)) (mpFromL P none 0 (i + 1)) = true) ∧
      (stopB (P (t.length - 1)).result mps = true ∨
        pageCond (1 + t.length) (mpFromL P none 0 t.length) = false)) ∧
    (∀ n, (∀ i, i < n → stopB (P i).result mps = false ∧
        pageCond (1 + i) (mpFromL P none 0 i) = true) →
      pageCond (1 + n) (mpFromL P none 0 n) = true →
      stopB (P n).result mps = true → n < fuel →
      ∃ t, getPageBasedIterator P mps fuel = (true, t) ∧ t.length = n + 1) ∧
    (∀ n, (∀ i, i < n → stopB (P i).result mps = false ∧
        pageCond (1 + i) (mpFromL P none 0 i) = true) →
      pageCond (1 + n) (mpFromL P none 0 n) = false → n < fuel →
      ∃ t, getPageBasedIterator P mps fuel = (true, t) ∧ t.length = n) := by
  refine ⟨?_, ?_, ?_, ?_, ?_⟩
  · intro t h
    obtain ⟨h1, h2, h3⟩ := maxGo_stop L res mps fuel 0 none t h
    refine ⟨h1, ?_, ?_⟩
    · intro i hi
      simpa using h2 i hi
    · simpa using h3
  · intro n hpre hstop hfuel
    exact maxGo_stops_when L res mps n fuel 0 none
      (by intro i hi; simpa using hpre i hi) (by simpa using hstop) hfuel
  · intro t h
    obtain ⟨hc1, hc2, hc3, hc4⟩ := pageGo_char P mps fuel 0 1 none t h
    have hne : t ≠ [] := by
      intro h0
      have := hc1 h0
      simp [pageCond] at this
    refine ⟨hne, ?_, ?_⟩
    · intro i hi
      obtain ⟨ha, hb⟩ := hc3 i hi
      exact ⟨by simpa using ha, hb⟩
    · rcases hc4 hne with hl | hr
      · left
        simpa using hl
      · right
        exact hr
  · intro n hpre hcond hstop hfuel
    exact pageGo_stops_short P mps n fuel 0 1 none
      (by intro i hi; exact ⟨by simpa using (hpre i hi).1, (hpre i hi).2⟩)
      hcond (by simpa using hstop) hfuel
  · intro n hpre hcond hfuel
    exact pageGo_stops_bound P mps n fuel 0 1 none
      (by intro i hi; exact ⟨by simpa using (hpre i hi).1, (hpre i hi).2⟩)
      hcond hfuel

/-- Witness for C2 (amended), max-id converse conjunct at a concrete input:
the loader answers `[4,3,2,1]` and then an empty page, so the run
terminates with exactly two loader calls. -/
theorem c2_stop_amended_witness :
    (getMaxIDIterator (fun k => if k = 0 then [4, 3, 2, 1] else [])
      (fun e => e) none 10).2.length = 1 + 1 := by
  obtain ⟨t, ht, hlen⟩ :=
    (c2_stop_amended (fun k => if k = 0 then [4, 3, 2, 1] else [])
        (fun e => e) (fun _ => PageLoad.mk ([] : List Nat) none) none 10).2.1 1
      (by
        intro i hi
        have hieq : i = 0 := by omega
        subst hieq
        decide)
      (by decide) (by decide)
  rw [ht]
  exact hlen

theorem find?_isSome_of_exists {α : Type} (l : List α) (p : α → Bool)
    (h : ∃ x, x ∈ l ∧ p x = true) : ∃ y, l.find? p = some y := by
  induction l with
  | nil => simp at h
  | cons a l ih =>
    by_cases hpa : p a = true
    · exact ⟨a, by simp [List.find?, hpa]⟩
    · obtain ⟨x, hx, hpx⟩ := h
      rcases List.mem_cons.mp hx with rfl | hx'
      · exact absurd hpx hpa
      · obtain ⟨y, hy⟩ := ih ⟨x, hx', hpx⟩
        exact ⟨y, by simp [List.find?, hpa, hy]⟩

/-- `impl.filterArrayToMap` from `search.js`: for each requested id in the
given order, linear-scan `resources` for the first element whose resolver
value equals it (`find?` models the inner loop with `break`) and store it in
the map; when an id has no match the `!map.has(id)` check fires and a
NotFound error carrying that id is thrown (modelled as `Except.error`). -/
def famGo {α : Type} (resources : List α) (r : α → Nat) :
    List Nat → List (Nat × α) → Except Nat (List (Nat × α))
  | [], m => .ok m
  | id :: rest, m =>
    match resources.find? (fun v => r v = id) with
    | some v => famGo resources r rest (mapSet m id v)
    | none => .error id

/-- `impl.filterArrayToMap(resources, ids, resolver)`. -/
def filterArrayToMap {α : Type} (resources : List α) (ids : List Nat)
    (r : α → Nat) : Except Nat (List (Nat × α)) :=
  famGo resources r ids []

theorem famGo_error {α : Type} (resources : List α) (r : α → Nat) :
    ∀ (ids : List Nat) (m : List (Nat × α)) (b : Nat),
      ids.find? (fun id => (resources.find? (fun v => r v = id)).isNone) =
        some b →
      famGo resources r ids m = .error b := by
  intro ids
  induction ids with
  | nil => intro m b h; simp [List.find?] at h
  | cons id rest ih =>
    intro m b h
    cases hf : resources.find? (fun v => r v = id) with
    | none =>
      have hb : b = id := by
        rw [List.find?] at h
        rw [hf] at h
        simp at h
        exact h.symm
      subst hb
      simp [famGo, hf]
    | some v =>
      have hrest : rest.find?
          (fun id => (resources.find? (fun v => r v = id)).isNone) = some b := by
        rw [List.find?] at h
        rw [hf] at h
        simpa using h
      simp only [famGo, hf]
      exact ih (mapSet m id v) b hrest

theorem famGo_ok {α : Type} (resources : List α) (r : α → Nat) :
    ∀ (ids : List Nat),
      (∀ id ∈ ids, ∃ v, v ∈ resources ∧ r v = id) →
      ∀ (m : List (Nat × α)),
        (∀ p ∈ m, resources.find? (fun w => r w = p.1) = some p.2) →
        ∃ m', famGo resources r ids m = .ok m' ∧
          (∀ a, a ∈ m'.map Prod.fst ↔ a ∈ m.map Prod.fst ∨ a ∈ ids) ∧
          (∀ p ∈ m', resources.find? (fun w => r w = p.1) = some p.2) ∧
          ((m.map Prod.fst).Nodup → (m'.map Prod.fst).Nodup) := by
  intro ids
  induction ids with
  | nil =>
    intro _ m hminv
    exact ⟨m, rfl, by simp, hminv, fun h => h⟩
  | cons id rest ih =>
    intro hall m hminv
    obtain ⟨v0, hv0, hrv0⟩ := hall id (List.mem_cons_self _ _)
    obtain ⟨v, hfind⟩ := find?_isSome_of_exists resources
      (fun w => r w = id) ⟨v0, hv0, by simp [hrv0]⟩
    have hminv' : ∀ p ∈ mapSet m id v,
        resources.find? (fun w => r w = p.1) = some p.2 := by
      intro p hp
      rcases mapSet_mem m id v p hp with rfl | hp'
      · exact hfind
      · exact hminv p hp'
    obtain ⟨m', hok, hmem, hminv2, hnd⟩ := ih
      (fun i hi => hall i (List.mem_cons_of_mem _ hi)) (mapSet m id v) hminv'
    refine ⟨m', ?_, ?_, hminv2, ?_⟩
    · simp only [famGo, hfind]
      exact hok
    · intro a
      rw [hmem a, mapSet_keys_mem]
      simp only [List.mem_cons]
      tauto
    · intro h
      exact hnd (mapSet_keys_nodup m id v h)

/-- C6: `filterArrayToMap` binds each requested id, in order, to the first
element of the array whose resolver value equals it; when every requested id
has a match it returns a map whose key set is exactly the requested id set;
when some requested id has no match it fails with NotFound carrying the
first such id in request order (and processes no requested ids after it). -/
theorem c6_filterArrayToMap_spec {α : Type} (resources : List α)
    (ids : List Nat) (r : α → Nat) :
    ((∀ id ∈ ids, ∃ v, v ∈ resources ∧ r v = id) →
      ∃ m, filterArrayToMap resources ids r = .ok m ∧
        (∀ a, a ∈ m.map Prod.fst ↔ a ∈ ids) ∧
        (∀ id ∈ ids, ∃ v, mapFind m id = some v ∧
          resources.find? (fun w => r w = id) = some v)) ∧
    (∀ b, ids.find? (fun id =>
        (resources.find? (fun v => r v = id)).isNone) = some b →
      filterArrayToMap resources ids r = .error b) := by
  constructor
  · intro hall
    obtain ⟨m, hok, hmem, hminv, hnd⟩ :=
      famGo_ok resources r ids hall [] (by simp)
    refine ⟨m, hok, ?_, ?_⟩
    · intro a
      rw [hmem a]
      simp
    · intro id hid
      have hkey : id ∈ m.map Prod.fst := (hmem id).mpr (by simp [hid])
      obtain ⟨p, hf, hm, hk⟩ := mapFind_isSome_of_mem_keys m id hkey
      refine ⟨p.2, ?_, ?_⟩
      · simp only [mapFind]
        rw [hf]
        rfl
      · rw [← hk]
        exact hminv p hm
  · intro b h
    exact famGo_error resources r ids [] b h

/-- Witness for C6 at the claim's concrete inputs: elements `[1,2,3]`
standing for records with those ids (`resolver` the identity); requesting
`[1,4]` fails with NotFound(4), and requesting `[1,3]` succeeds binding `1`
to its first match. -/
theorem c6_filterArrayToMap_witness :
    filterArrayToMap [1, 2, 3] [1, 4] (fun v => v) = Except.error 4 :=
  (c6_filterArrayToMap_spec [1, 2, 3] [1, 4] (fun v => v)).2 4 (by decide)

/-- The two statically-known id sources accepted by the
`impl.SimpleMappedResource` constructor in `search.js`: a plain id array,
or a JS `Set` of ids (modelled as its iteration order, a duplicate-free
list).  The async-provider variant is not involved in the claims. -/
inductive IdsSource where
  | fromArray (l : List Nat)
  | fromSet (s : List Nat)

/-- The `ids_` field stored by the `SimpleMappedResource` constructor:
`Array.from(new Set(ids))` for an array argument (deduplication through a JS
`Set`), `Array.from(ids)` for a `Set` argument. -/
def smrStoredIds : IdsSource → List Nat
  | .fromArray l => jsSetFromArray l
  | .fromSet s => s

/-- `SimpleMappedResource.arrayIDs()`: resolves to the stored array. -/
def smrArrayIDs (src : IdsSource) : List Nat :=
  smrStoredIds src

/-- `SimpleMappedResource.ids()`: resolves to `new Set(this.ids_)`,
modelled as the distinct elements of the stored array in insertion
order. -/
def smrIds (src : IdsSource) : List Nat :=
  jsSetFromArray (smrStoredIds src)

/-- Modelled from the spec's words, for comparison with the implementation:
the distinct ids of a list in order of first occurrence (keep each id the
first time it appears, drop later occurrences). -/
def distinctFirstOcc : List Nat → List Nat
  | [] => []
  | x :: xs => x :: distinctFirstOcc (xs.filter (fun y => y ≠ x))
termination_by l => l.length
decreasing_by
  have := List.length_filter_le (fun y => decide (y ≠ x)) xs
  simp only [List.length_cons]
  omega

theorem foldl_insertUnique_eq : ∀ (l acc : List Nat),
    l.foldl insertUnique acc =
      acc ++ distinctFirstOcc (l.filter (fun y => decide (y ∉ acc)))
  | [], acc => by simp [distinctFirstOcc]
  | x :: xs, acc => by
    by_cases hx : x ∈ acc
    · have h1 : insertUnique acc x = acc := by simp [insertUnique, hx]
      have h2 : (x :: xs).filter (fun y => decide (y ∉ acc)) =
          xs.filter (fun y => decide (y ∉ acc)) := by
        simp [List.filter_cons, hx]
      rw [List.foldl_cons, h1, h2]
      exact foldl_insertUnique_eq xs acc
    · have h1 : insertUnique acc x = acc ++ [x] := by simp [insertUnique, hx]
      have h2 : (x :: xs).filter (fun y => decide (y ∉ acc)) =
          x :: xs.filter (fun y => decide (y ∉ acc)) := by
        simp [List.filter_cons, hx]
      rw [List.foldl_cons, h1, h2, foldl_insertUnique_eq xs (acc ++ [x])]
      have h3 : xs.filter (fun y => decide (y ∉ acc ++ [x])) =
          (xs.filter (fun y => decide (y ∉ acc))).filter
            (fun y => decide (y ≠ x)) := by
        rw [List.filter_filter]
        apply List.filter_congr
        intro y _
        by_cases hy1 : y ∈ acc
        · simp [hy1]
        · by_cases hy2 : y = x
          · simp [hy2]
          · simp [hy1, hy2]
      have h4 : distinctFirstOcc (x :: xs.filter (fun y => decide (y ∉ acc))) =
          x :: distinctFirstOcc ((xs.filter (fun y => decide (y ∉ acc))).filter
            (fun y => y ≠ x)) := by
        rw [distinctFirstOcc]
      rw [h4, ← h3, List.append_assoc]
      rfl

theorem foldl_insertUnique_nodup : ∀ (l acc : List Nat), acc.Nodup →
    (l.foldl insertUnique acc).Nodup
  | [], _ => fun h => h
  | x :: xs, acc => fun h =>
    foldl_insertUnique_nodup xs (insertUnique acc x) (insertUnique_nodup acc x h)

theorem foldl_insertUnique_mem : ∀ (l acc : List Nat) (a : Nat),
    a ∈ l.foldl insertUnique acc ↔ a ∈ acc ∨ a ∈ l
  | [], acc, a => by simp
  | x :: xs, acc, a => by
    rw [List.foldl_cons, foldl_insertUnique_mem xs (insertUnique acc x) a,
      insertUnique_mem]
    simp only [List.mem_cons]
    tauto

theorem jsSetFromArray_eq_distinctFirstOcc (l : List Nat) :
    jsSetFromArray l = distinctFirstOcc l := by
  have h := foldl_insertUnique_eq l []
  simpa [jsSetFromArray, List.filter_true] using h

theorem jsSetFromArray_nodup (l : List Nat) : (jsSetFromArray l).Nodup :=
  foldl_insertUnique_nodup l [] List.nodup_nil

theorem jsSetFromArray_mem (l : List Nat) (a : Nat) :
    a ∈ jsSetFromArray l ↔ a ∈ l := by
  rw [jsSetFromArray, foldl_insertUnique_mem]
  simp

/-- C10 (implicit): a `SimpleMappedResource` built from a concrete id array
exposes `arrayIDs()` as the distinct ids of that array in order of first
occurrence; its `ids()` is a duplicate-free collection containing exactly
those ids; and a resource built from a `Set` keeps the set's iteration
order unchanged in `arrayIDs()`. -/
theorem c10_simpleMappedResource_ids (l s : List Nat) :
    smrArrayIDs (IdsSource.fromArray l) = distinctFirstOcc l ∧
    (smrIds (IdsSource.fromArray l)).Nodup ∧
    (∀ a, a ∈ smrIds (IdsSource.fromArray l) ↔ a ∈ l) ∧
    smrArrayIDs (IdsSource.fromSet s) = s := by
  refine ⟨?_, ?_, ?_, rfl⟩
  · exact jsSetFromArray_eq_distinctFirstOcc l
  · exact jsSetFromArray_nodup _
  · intro a
    rw [smrIds, jsSetFromArray_mem]
    exact jsSetFromArray_mem l a

/-- Index-tracked map over a list, modelling JavaScript
`array.map((e, i) => …)`. -/
def mapWithIdx {β γ : Type} (f : Nat → β → γ) : Nat → List β → List γ
  | _, [] => []
  | i, x :: xs => f i x :: mapWithIdx f (i + 1) xs

/-- Positional pairing of a response array with its request group:
`valueSet.map((e, i) => ({ element: e, id: idSet[i] }))` from
`getIDMatchedValues` in `batch.js`.  When the response is longer than the
group the JS reads `idSet[i]` as `undefined`, modelled by the `Option`. -/
def pairIds {β : Type} (vs : List β) (g : List Nat) : List (β × Option Nat) :=
  mapWithIdx (fun i e => (e, g[i]?)) 0 vs

/-- `getIDMatchedValues` from `batch.js`: split the ids with `splitIds`,
call the requester once per group, pair each group's response positionally
with the group's ids, and concatenate the per-group results in group
order. -/
def getIDMatchedValues {β : Type} (ids : List Nat)
    (requester : List Nat → List β) (B : Nat) : List (β × Option Nat) :=
  ((splitIds ids B).map (fun g => pairIds (requester g) g)).flatten

/-- `getBatchedValues` from `batch.js`: run `getIDMatchedValues`, convert
each element/id pair through `resolver` into a `[key, value]` tuple, and
`map.set` the tuples into a map in order. -/
def getBatchedValues {β γ : Type} (ids : List Nat)
    (requester : List Nat → List β)
    (resolver : β → Option Nat → Nat × γ) (B : Nat) : List (Nat × γ) :=
  (getIDMatchedValues ids requester B).foldl
    (fun m p => mapSet m (resolver p.1 p.2).1 (resolver p.1 p.2).2) []

/-- `getRawValues` from `batch.js`: the combined batched elements without
the id pairing. -/
def getRawValues {β : Type} (ids : List Nat)
    (requester : List Nat → List β) (B : Nat) : List β :=
  (getIDMatchedValues ids requester B).map Prod.fst

theorem mapWithIdx_echo : ∀ (g : List Nat) (j : Nat) (full : List Nat),
    (∀ i, i < g.length → full[j + i]? = g[i]?) →
    mapWithIdx (fun i e => (e, full[i]?)) j g = g.map (fun e => (e, some e))
  | [], _, _ => fun _ => rfl
  | x :: xs, j, full => fun h => by
    have h0 : full[j]? = some x := by
      simpa using h 0 (by simp)
    have htail : ∀ i, i < xs.length → full[j + 1 + i]? = xs[i]? := by
      intro i hi
      have hstep := h (i + 1) (by simp; omega)
      have hidx : j + (i + 1) = j + 1 + i := by omega
      rw [hidx] at hstep
      simpa using hstep
    simp only [mapWithIdx, List.map_cons]
    rw [h0, mapWithIdx_echo xs (j + 1) full htail]

/-- For the echo requester the positional pairing matches every id with
itself. -/
theorem pairIds_self (g : List Nat) :
    pairIds g g = g.map (fun e => (e, some e)) :=
  mapWithIdx_echo g 0 g (by intro i hi; simp)

theorem flatten_map_map {β γ : Type} (f : β → γ) : ∀ (L : List (List β)),
    (L.map (fun l => l.map f)).flatten = L.flatten.map f
  | [] => rfl
  | l :: L => by
    simp only [List.map_cons, List.flatten_cons, List.map_append]
    rw [flatten_map_map f L]

theorem foldl_mapSet_diag : ∀ (ids : List Nat) (m : List (Nat × Nat)),
    (m.map Prod.fst).Nodup → (∀ p ∈ m, p.2 = p.1) →
    ((ids.foldl (fun m id => mapSet m id id) m).map Prod.fst).Nodup ∧
    (∀ a, a ∈ (ids.foldl (fun m id => mapSet m id id) m).map Prod.fst ↔
      a ∈ m.map Prod.fst ∨ a ∈ ids) ∧
    (∀ p ∈ ids.foldl (fun m id => mapSet m id id) m, p.2 = p.1)
  | [], m => fun h1 h2 => ⟨h1, by simp, h2⟩
  | id :: rest, m => fun h1 h2 => by
    simp only [List.foldl_cons]
    obtain ⟨g1, g2, g3⟩ := foldl_mapSet_diag rest (mapSet m id id)
      (mapSet_keys_nodup m id id h1)
      (by
        intro p hp
        rcases mapSet_mem m id id p hp with rfl | hp'
        · rfl
        · exact h2 p hp')
    refine ⟨g1, ?_, g3⟩
    intro a
    rw [g2 a, mapSet_keys_mem]
    simp only [List.mem_cons]
    tauto

/-- C8: for every id list and `batchSize ≥ 1`, with a requester that echoes
its input ids back positionally as values and a resolver pairing each
element with its matched id, `getBatchedValues` returns a map in which
every input id maps to itself and whose key set equals the deduplicated
input id set. -/
theorem c8_echo_roundtrip (ids : List Nat) (B : Nat) (hB : 1 ≤ B) :
    ((getBatchedValues ids (fun g => g)
        (fun e oid => (oid.getD 0, e)) B).map Prod.fst).Nodup ∧
    (∀ a, a ∈ (getBatchedValues ids (fun g => g)
        (fun e oid => (oid.getD 0, e)) B).map Prod.fst ↔ a ∈ ids) ∧
    (∀ id ∈ ids, mapFind (getBatchedValues ids (fun g => g)
        (fun e oid => (oid.getD 0, e)) B) id = some id) := by
  have hpairs : getIDMatchedValues ids (fun g => g) B =
      ids.map (fun e => (e, some e)) := by
    unfold getIDMatchedValues
    have hmap : (splitIds ids B).map (fun g => pairIds g g) =
        (splitIds ids B).map (fun g => g.map (fun e => (e, some e))) :=
      List.map_congr_left (fun g _ => pairIds_self g)
    rw [hmap, flatten_map_map, splitIds_join ids B hB]
  have key : getBatchedValues ids (fun g => g)
      (fun e oid => (oid.getD 0, e)) B =
      ids.foldl (fun m id => mapSet m id id) [] := by
    unfold getBatchedValues
    rw [hpairs, List.foldl_map]
    rfl
  obtain ⟨g1, g2, g3⟩ := foldl_mapSet_diag ids []
    (by simp) (by simp)
  refine ⟨by rw [key]; exact g1, ?_, ?_⟩
  · intro a
    rw [key, g2 a]
    simp
  · intro id hid
    have hkey : id ∈ (ids.foldl (fun m id => mapSet m id id) []).map
        Prod.fst := (g2 id).mpr (by simp [hid])
    obtain ⟨p, hf, hm, hk⟩ := mapFind_isSome_of_mem_keys _ id hkey
    have hvp : p.2 = p.1 := g3 p hm
    rw [key]
    simp only [mapFind]
    rw [hf]
    simp [hvp, hk]

/-- Witness for C8 at the concrete input `[1, 2, 1]`, `batchSize = 2`: with
the echo requester the id `1` maps to itself. -/
theorem c8_echo_roundtrip_witness :
    mapFind (getBatchedValues [1, 2, 1] (fun g => g)
      (fun e oid => (oid.getD 0, e)) 2) 1 = some 1 :=
  (c8_echo_roundtrip [1, 2, 1] 2 (by decide)).2.2 1 (by decide)

theorem nodup_subset_length_eq {l₁ l₂ : List Nat} (h₁ : l₁.Nodup)
    (h₂ : l₂.Nodup) (hsub : ∀ a ∈ l₁, a ∈ l₂) :
    l₁.length = l₂.length ↔ ∀ a ∈ l₂, a ∈ l₁ := by
  have hc1 : l₁.toFinset.card = l₁.length := List.toFinset_card_of_nodup h₁
  have hc2 : l₂.toFinset.card = l₂.length := List.toFinset_card_of_nodup h₂
  have hfs : l₁.toFinset ⊆ l₂.toFinset := by
    intro x hx
    rw [List.mem_toFinset] at hx ⊢
    exact hsub x hx
  constructor
  · intro hlen a ha
    have heq : l₁.toFinset = l₂.toFinset :=
      Finset.eq_of_subset_of_card_le hfs (by omega)
    have : a ∈ l₁.toFinset := by
      rw [heq, List.mem_toFinset]
      exact ha
    rwa [List.mem_toFinset] at this
  · intro hsup
    have heq : l₁.toFinset = l₂.toFinset := by
      apply Finset.Subset.antisymm hfs
      intro x hx
      rw [List.mem_toFinset] at hx ⊢
      exact hsup x hx
    rw [← hc1, ← hc2, heq]

theorem findCongrOn {l : List Nat} {p q : Nat → Bool}
    (h : ∀ x ∈ l, p x = q x) : l.find? p = l.find? q := by
  induction l with
  | nil => rfl
  | cons a l ih =>
    have ha := h a (List.mem_cons_self _ _)
    by_cases hpa : p a = true
    · simp [List.find?, hpa, ha ▸ hpa]
    · have hqa : q a = true → False := fun hq => hpa (ha ▸ hq)
      have hpa' : p a = false := by simpa using hpa
      have hqa' : q a = false := by
        cases hq : q a
        · rfl
        · exact absurd hq (fun hq => hqa hq)
      simp [List.find?, hpa', hqa']
      exact ih (fun x hx => h x (List.mem_cons_of_mem _ hx))

/-- An id is matched by some element of the consumed prefix. -/
def matchedIn {α : Type} (r : α → Nat) (pre : List α) (id : Nat) : Bool :=
  pre.any (fun e => r e = id)

/-- Every requested id is matched by the consumed prefix. -/
def allMatched {α : Type} (r : α → Nat) (ids : List Nat)
    (pre : List α) : Bool :=
  ids.all (fun id => matchedIn r pre id)

theorem matchedIn_append {α : Type} (r : α → Nat) (l₁ l₂ : List α)
    (id : Nat) : matchedIn r (l₁ ++ l₂) id =
      (matchedIn r l₁ id || matchedIn r l₂ id) := by
  simp [matchedIn]

/-- Tail phase of `impl.filterIteratedToMap` from `search.js`: after the
stream pass, return the map if its size equals the number of requested ids,
otherwise throw NotFound with the first requested id missing from the map
(if the re-scan finds none, the map is returned unchanged). -/
def fimFinish {α : Type} (ids : List Nat) (m : List (Nat × α)) :
    Except Nat (List (Nat × α)) :=
  if m.length = ids.length then .ok m
  else
    match ids.find? (fun id => !(mapHas m id)) with
    | some b => .error b
    | none => .ok m

/-- Stream phase of `impl.filterIteratedToMap`: consume elements one by one,
storing each element whose resolver value is a requested id
(`ids.indexOf(eID) >= 0`), and break out of the loop as soon as the map size
reaches the number of requested ids.  The first component counts the
consumed elements. -/
def fimGo {α : Type} (ids : List Nat) (r : α → Nat) :
    List α → List (Nat × α) → Nat → Nat × Except Nat (List (Nat × α))
  | [], m, c => (c, fimFinish ids m)
  | e :: rest, m, c =>
    let m' := if r e ∈ ids then mapSet m (r e) e else m
    if m'.length = ids.length then (c + 1, .ok m')
    else fimGo ids r rest m' (c + 1)

/-- `impl.filterIteratedToMap(resources, ids, resolver)`: consumed-element
count paired with the result. -/
def filterIteratedToMap {α : Type} (resources : List α) (ids : List Nat)
    (r : α → Nat) : Nat × Except Nat (List (Nat × α)) :=
  fimGo ids r resources [] 0

theorem fimStep_inv {α : Type} (ids : List Nat) (r : α → Nat)
    (m : List (Nat × α)) (pre : List α) (e : α)
    (h1 : (m.map Prod.fst).Nodup)
    (h2 : ∀ a, a ∈ m.map Prod.fst ↔ a ∈ ids ∧ matchedIn r pre a = true)
    (h3 : ∀ p ∈ m, p.1 ∈ ids ∧ r p.2 = p.1 ∧ p.2 ∈ pre) :
    (((if r e ∈ ids then mapSet m (r e) e else m).map Prod.fst).Nodup) ∧
    (∀ a, a ∈ (if r e ∈ ids then mapSet m (r e) e else m).map Prod.fst ↔
      a ∈ ids ∧ matchedIn r (pre ++ [e]) a = true) ∧
    (∀ p ∈ (if r e ∈ ids then mapSet m (r e) e else m),
      p.1 ∈ ids ∧ r p.2 = p.1 ∧ p.2 ∈ pre ++ [e]) := by
  by_cases he : r e ∈ ids
  · rw [if_pos he]
    refine ⟨mapSet_keys_nodup m (r e) e h1, ?_, ?_⟩
    · intro a
      rw [mapSet_keys_mem, h2 a, matchedIn_append]
      simp only [matchedIn, List.any_cons, List.any_nil, Bool.or_false,
        Bool.or_eq_true, decide_eq_true_eq]
      constructor
      · rintro (rfl | ⟨hai, hm⟩)
        · exact ⟨he, Or.inr rfl⟩
        · exact ⟨hai, Or.inl hm⟩
      · rintro ⟨hai, hm | he2⟩
        · exact Or.inr ⟨hai, hm⟩
        · exact Or.inl he2.symm
    · intro p hp
      rcases mapSet_mem m (r e) e p hp with rfl | hp'
      · exact ⟨he, rfl, by simp⟩
      · obtain ⟨ha, hb, hc⟩ := h3 p hp'
        exact ⟨ha, hb, by simp [hc]⟩
  · rw [if_neg he]
    refine ⟨h1, ?_, ?_⟩
    · intro a
      rw [h2 a, matchedIn_append]
      simp only [matchedIn, List.any_cons, List.any_nil, Bool.or_false,
        Bool.or_eq_true, decide_eq_true_eq]
      constructor
      · rintro ⟨hai, hm⟩
        exact ⟨hai, Or.inl hm⟩
      · rintro ⟨hai, hm | hre⟩
        · exact ⟨hai, hm⟩
        · exact absurd (hre ▸ hai) he
    · intro p hp
      obtain ⟨ha, hb, hc⟩ := h3 p hp
      exact ⟨ha, hb, by simp [hc]⟩

theorem keysFull_iff {α : Type} (ids : List Nat) (r : α → Nat)
    (hnd : ids.Nodup) (m : List (Nat × α)) (pre : List α)
    (h1 : (m.map Prod.fst).Nodup)
    (h2 : ∀ a, a ∈ m.map Prod.fst ↔ a ∈ ids ∧ matchedIn r pre a = true) :
    (m.length = ids.length ↔ allMatched r ids pre = true) := by
  have hsub : ∀ a ∈ m.map Prod.fst, a ∈ ids := fun a ha => ((h2 a).mp ha).1
  have hlen : m.length = (m.map Prod.fst).length := (List.length_map _ _).symm
  rw [hlen, nodup_subset_length_eq h1 hnd hsub]
  simp only [allMatched, List.all_eq_true]
  constructor
  · intro h a ha
    exact ((h2 a).mp (h a ha)).2
  · intro h a ha
    exact (h2 a).mpr ⟨ha, h a ha⟩

theorem fimGo_main {α : Type} (ids : List Nat) (r : α → Nat)
    (hnd : ids.Nodup) : ∀ (rest : List α) (m : List (Nat × α)) (pre : List α),
    ((m.map Prod.fst).Nodup) →
    (∀ a, a ∈ m.map Prod.fst ↔ a ∈ ids ∧ matchedIn r pre a = true) →
    (∀ p ∈ m, p.1 ∈ ids ∧ r p.2 = p.1 ∧ p.2 ∈ pre) →
    m.length ≠ ids.length →
    (fimGo ids r rest m pre.length).1 ≤ pre.length + rest.length ∧
    (∀ q, pre.length + 1 ≤ q → q < (fimGo ids r rest m pre.length).1 →
      allMatched r ids ((pre ++ rest).take q) = false) ∧
    ((fimGo ids r rest m pre.length).1 < pre.length + rest.length →
      allMatched r ids
        ((pre ++ rest).take (fimGo ids r rest m pre.length).1) = true) ∧
    (∀ b, ids.find? (fun id => !(matchedIn r (pre ++ rest) id)) = some b →
      (fimGo ids r rest m pre.length).2 = .error b) ∧
    ((∀ id ∈ ids, matchedIn r (pre ++ rest) id = true) →
      ∃ mm, (fimGo ids r rest m pre.length).2 = .ok mm ∧
        (mm.map Prod.fst).Nodup ∧
        (∀ a, a ∈ mm.map Prod.fst ↔ a ∈ ids) ∧
        (∀ id ∈ ids, ∃ v, mapFind mm id = some v ∧ r v = id ∧
          v ∈ pre ++ rest)) := by
  intro rest
  induction rest with
  | nil =>
    intro m pre h1 h2 h3 hnotfull
    simp only [fimGo, List.append_nil, List.length_nil, Nat.add_zero]
    refine ⟨le_refl _, ?_, ?_, ?_, ?_⟩
    · intro q hq1 hq2
      omega
    · intro h
      omega
    · intro b hb
      have hmh : ∀ x ∈ ids, mapHas m x = matchedIn r pre x := by
        intro x hx
        cases hmx : matchedIn r pre x with
        | true => exact (mapHas_iff m x).mpr ((h2 x).mpr ⟨hx, hmx⟩)
        | false =>
          cases hh : mapHas m x with
          | false => rfl
          | true =>
            have hmem := (h2 x).mp ((mapHas_iff m x).mp hh)
            rw [hmx] at hmem
            exact absurd hmem.2 (by simp)
      simp only [fimFinish, if_neg hnotfull]
      rw [findCongrOn (fun x hx => by rw [hmh x hx]), hb]
    · intro hall
      exfalso
      apply hnotfull
      rw [keysFull_iff ids r hnd m pre h1 h2]
      simp only [allMatched, List.all_eq_true]
      exact hall
  | cons e rest' ih =>
    intro m pre h1 h2 h3 hnotfull
    obtain ⟨k1, k2, k3⟩ := fimStep_inv ids r m pre e h1 h2 h3
    have hsplit : pre ++ e :: rest' = (pre ++ [e]) ++ rest' := by simp
    have hplen : (pre ++ [e]).length = pre.length + 1 := by simp
    have htake1 : (pre ++ e :: rest').take (pre.length + 1) = pre ++ [e] := by
      rw [hsplit]
      exact List.take_left' hplen
    simp only [fimGo]
    by_cases hfull :
        (if r e ∈ ids then mapSet m (r e) e else m).length = ids.length
    · rw [if_pos hfull]
      have hfull' := (keysFull_iff ids r hnd _ (pre ++ [e]) k1 k2).mp hfull
      refine ⟨by simp, ?_, ?_, ?_, ?_⟩
      · intro q hq1 hq2
        omega
      · intro _
        rw [htake1]
        exact hfull'
      · intro b hb
        have hb1 := List.find?_some hb
        have hb2 := List.mem_of_find?_eq_some hb
        have hm1 : matchedIn r (pre ++ [e]) b = true := by
          simp only [allMatched, List.all_eq_true] at hfull'
          exact hfull' b hb2
        have hglobal : matchedIn r (pre ++ e :: rest') b = true := by
          rw [hsplit, matchedIn_append, hm1]
          simp
        rw [hglobal] at hb1
        simp at hb1
      · intro _
        have hkeysub : ∀ a ∈ (if r e ∈ ids then
            mapSet m (r e) e else m).map Prod.fst, a ∈ ids :=
          fun a ha => ((k2 a).mp ha).1
        have hlenm : (if r e ∈ ids then mapSet m (r e) e else m).length =
            ((if r e ∈ ids then mapSet m (r e) e else m).map
              Prod.fst).length := (List.length_map _ _).symm
        have hsup : ∀ a ∈ ids, a ∈ (if r e ∈ ids then
            mapSet m (r e) e else m).map Prod.fst :=
          (nodup_subset_length_eq k1 hnd hkeysub).mp
            (by rw [← hlenm]; exact hfull)
        refine ⟨_, rfl, k1, ?_, ?_⟩
        · intro a
          exact ⟨fun ha => ((k2 a).mp ha).1, fun ha => hsup a ha⟩
        · intro id hid
          obtain ⟨p, hf, hm, hk⟩ :=
            mapFind_isSome_of_mem_keys _ id (hsup id hid)
          obtain ⟨hp1, hp2, hp3⟩ := k3 p hm
          refine ⟨p.2, ?_, by rw [hp2, hk], ?_⟩
          · simp only [mapFind]
            rw [hf]
            rfl
          · rw [hsplit]
            exact List.mem_append_left _ hp3
    · rw [if_neg hfull]
      have hnotall : allMatched r ids (pre ++ [e]) = false := by
        cases hh : allMatched r ids (pre ++ [e]) with
        | false => rfl
        | true =>
          exact absurd
            ((keysFull_iff ids r hnd _ (pre ++ [e]) k1 k2).mpr hh) hfull
      obtain ⟨g1, g2, g3, g4, g5⟩ := ih
        (if r e ∈ ids then mapSet m (r e) e else m) (pre ++ [e]) k1 k2 k3 hfull
      rw [hplen] at g1 g2 g3 g4 g5
      refine ⟨?_, ?_, ?_, ?_, ?_⟩
      · simp only [List.length_cons]
        omega
      · intro q hq1 hq2
        rcases Nat.lt_or_ge q (pre.length + 2) with hc | hc
        · have hqeq : q = pre.length + 1 := by omega
          subst hqeq
          rw [htake1]
          exact hnotall
        · have := g2 q (by omega) hq2
          rw [hsplit]
          exact this
      · intro hlt
        have := g3 (by simp only [List.length_cons] at hlt; omega)
        rw [hsplit]
        exact this
      · intro b hb
        apply g4
        rw [← hsplit]
        exact hb
      · intro hall
        obtain ⟨mm, hok, m1, m2, m3⟩ := g5 (by
          intro id hid
          rw [← hsplit]
          exact hall id hid)
        refine ⟨mm, hok, m1, m2, ?_⟩
        intro id hid
        obtain ⟨v, hv1, hv2, hv3⟩ := m3 id hid
        exact ⟨v, hv1, hv2, by rw [hsplit]; exact hv3⟩

/-- Counterexample to C7 as stated: with the duplicated request list
`[1, 1]` and the single-element stream `[1]`, the pass ends with a map of
size 1 while 2 ids were requested — the sizes differ — yet the code returns
the map instead of throwing NotFound, because every requested id is present
in the map and the missing-id re-scan finds nothing to report. -/
theorem c7_dup_counterexample :
    (filterIteratedToMap [1] [1, 1] (fun n => n)).2 = .ok [(1, 1)] ∧
    ([(1, 1)] : List (Nat × Nat)).length ≠ [1, 1].length := by
  constructor
  · rfl
  · decide

/-- C7 (amended): assuming the requested id list is duplicate-free,
`filterIteratedToMap` consumes the sequence at most once; consumption never
stops while some requested id is still unmatched, and it stops early only
once the consumed prefix matches every requested id; if some requested id
is matched nowhere in the sequence it throws NotFound with the first such
id in request order; and if every requested id is matched somewhere it
returns a map binding exactly the requested ids to matching elements. -/
theorem c7_filterIteratedToMap_amended {α : Type} (resources : List α)
    (ids : List Nat) (r : α → Nat) (hnd : ids.Nodup) :
    (filterIteratedToMap resources ids r).1 ≤ resources.length ∧
    (∀ q, 1 ≤ q → q < (filterIteratedToMap resources ids r).1 →
      allMatched r ids (resources.take q) = false) ∧
    ((filterIteratedToMap resources ids r).1 < resources.length →
      allMatched r ids
        (resources.take (filterIteratedToMap resources ids r).1) = true) ∧
    (∀ b, ids.find? (fun id => !(matchedIn r resources id)) = some b →
      (filterIteratedToMap resources ids r).2 = .error b) ∧
    ((∀ id ∈ ids, matchedIn r resources id = true) →
      ∃ mm, (filterIteratedToMap resources ids r).2 = .ok mm ∧
        (mm.map Prod.fst).Nodup ∧
        (∀ a, a ∈ mm.map Prod.fst ↔ a ∈ ids) ∧
        (∀ id ∈ ids, ∃ v, mapFind mm id = some v ∧ r v = id ∧
          v ∈ resources)) := by
  by_cases hids : ids = []
  · subst hids
    cases resources with
    | nil =>
      refine ⟨?_, ?_, ?_, ?_, ?_⟩ <;>
        simp [filterIteratedToMap, fimGo, fimFinish, allMatched]
    | cons e rest =>
      have hrun : filterIteratedToMap (e :: rest) [] r = (1, .ok []) := by
        simp [filterIteratedToMap, fimGo]
      refine ⟨?_, ?_, ?_, ?_, ?_⟩
      · rw [hrun]
        simp
      · intro q hq1 hq2
        rw [hrun] at hq2
        omega
      · intro _
        simp [allMatched]
      · intro b hb
        simp at hb
      · intro _
        exact ⟨[], by rw [hrun], by simp, by simp, by simp⟩
  · have h0 := fimGo_main ids r hnd resources [] []
      (by simp) (by simp [matchedIn]) (by simp)
      (by
        have := List.length_pos.mpr hids
        simp only [List.length_nil]
        omega)
    simpa [filterIteratedToMap] using h0

/-- Witness for C7 (amended) at a concrete input: requesting `[6, 9]`
against the stream `[5, 6, 7]` fails with NotFound carrying `9`, the first
(and only) requested id that never appears. -/
theorem c7_filterIteratedToMap_witness :
    (filterIteratedToMap [5, 6, 7] [6, 9] (fun n => n)).2 = .error 9 :=
  (c7_filterIteratedToMap_amended [5, 6, 7] [6, 9] (fun n => n)
    (by decide)).2.2.2.1 9 (by decide)
